import Mathlib

/-!
Verification of the Multi-QR encoder/decoder codec
(`services/qr_tools.py` of Abhishek-2502/Multi_QR_Encoder_Decoder).

Strings are modelled as lists of unicode characters (`Str := List Char`),
matching Python's view of `str` as a sequence of code points.

External collaborators of the codec are modelled as parameters, exactly at
the boundary the source uses them:
* `hashlib.sha256(...).hexdigest()` is a parameter `H : HashFn`;
* `json.dumps({"hash": h, "text": t}, ensure_ascii=False)` / `json.loads`
  are the fields of a `JsonCodec` parameter (`loads` returns `none` where
  `json.loads` raises);
* `cryptography.fernet.Fernet` is a `FernetScheme` parameter (`decrypt`
  returns `none` where `Fernet.decrypt` raises `InvalidToken`);
* the QR renderer (`qrcode`), the Pillow tiling, and the scanner (`pyzbar`)
  exchange exactly the per-symbol frame strings, so the "big image" is
  modelled by the list of frame strings it carries: encoding yields that
  list and decoding consumes the scanner's list of decoded strings.

The error strings returned through the `(value, error)` tuples of the
source are modelled by the inductive `QrError`; each constructor records
the exact source message it stands for.
-/

/-- Python strings as sequences of characters. -/
abbrev Str := List Char

/-- The error taxonomy of `qr_tools.py`; each constructor corresponds to one
exact error value produced by the source:
* `noQRCodes` : `"No QR codes found."` (`_decode_big_image`)
* `invalidFormat` : `"Invalid QR format."` (`_decode_big_image`)
* `missingChunks m` : `f"Missing QR chunks: {m}"` (`_decode_big_image`)
* `decryptionFailed` : `"Decryption failed. Wrong passphrase or corrupted data."` (`maybe_decrypt`)
* `integrityMismatch` : `"Integrity check failed (SHA-256 mismatch)"` (`unwrap_and_verify_payload`)
* `chunkSizeNotPositive` : `ValueError("chunk_size must be positive")` (`chunk_text`)
* `noImagesToTile` : `ValueError("No images to tile")` (`tile_images`). -/
inductive QrError where
  | noQRCodes
  | invalidFormat
  | missingChunks (missing : List Int)
  | decryptionFailed
  | integrityMismatch
  | chunkSizeNotPositive
  | noImagesToTile
  deriving DecidableEq, Repr

/-- One parsed QR frame: `msg_id, idx, total, chunk` as recovered by the
parsing loop of `_decode_big_image`.  `idx` and `total` are `Int` because
Python's `int()` parses signed integers. -/
structure Frame where
  msgId : Str
  idx : Int
  total : Int
  chunk : Str
  deriving DecidableEq, Repr

/-- The shape of values returned by `json.loads`: Python's decoding of JSON
into `None`/`bool`/numbers/`str`/`list`/`dict`.  Numbers keep their source
text (their numeric value is never used by the codec).  Object fields are
kept in order of appearance; lookup follows Python dict semantics where a
later duplicate key overwrites an earlier one. -/
inductive JsonVal where
  | jnull
  | jbool (b : Bool)
  | jnum (raw : Str)
  | jstr (s : Str)
  | jarr (elems : List JsonVal)
  | jobj (fields : List (Str × JsonVal))

/-- The JSON library boundary used by the source: `dumps h t` stands for
`json.dumps({"hash": h, "text": t}, ensure_ascii=False)` and `loads`
stands for `json.loads` (`none` where it raises). -/
structure JsonCodec where
  dumps : Str → Str → Str
  loads : Str → Option JsonVal

/-- The Fernet boundary used by the source (`_get_fernet` derives the key
from the passphrase, so the scheme is keyed directly by the passphrase):
`decrypt` returns `none` exactly where `Fernet.decrypt` raises
`InvalidToken`. -/
structure FernetScheme where
  encrypt : Str → Str → Str
  decrypt : Str → Str → Option Str

/-- The `hashlib.sha256(text.encode("utf-8")).hexdigest()` boundary. -/
abbrev HashFn := Str → Str

/-- The key `"hash"` of the checksum envelope. -/
def hashKey : Str := ['h', 'a', 's', 'h']

/-- The key `"text"` of the checksum envelope. -/
def textKey : Str := ['t', 'e', 'x', 't']

/-! ### Python primitives used by the source -/

/-- ASCII decimal digit test (`'0' <= c <= '9'`). -/
def isDig (c : Char) : Bool := 48 ≤ c.toNat && c.toNat ≤ 57

/-- Python whitespace stripped by `int()` before parsing. -/
def pyWs (c : Char) : Bool :=
  c == ' ' || c == '\t' || c == '\n' || c == '\r' || c == '\x0b' || c == '\x0c'

/-- Strip leading and trailing Python whitespace, as `int()` does. -/
def stripWs (s : Str) : Str :=
  ((s.dropWhile pyWs).reverse.dropWhile pyWs).reverse

/-- Numeric value of an ASCII digit character. -/
def charVal (c : Char) : Nat := c.toNat - 48

/-- Adjacent-underscore check for Python's `int()` digit grammar: `"__"`
never occurs. -/
def adjOk : Str → Bool
  | c1 :: c2 :: rest => !(c1 == '_' && c2 == '_') && adjOk (c2 :: rest)
  | _ => true

/-- First character is an ASCII digit. -/
def firstDig : Str → Bool
  | [] => false
  | c :: _ => isDig c

/-- The digit-group grammar accepted by Python's `int()` after the optional
sign: non-empty, ASCII digits with single underscores strictly between
digits. -/
def digitsOk (s : Str) : Bool :=
  !s.isEmpty && s.all (fun c => isDig c || c == '_') &&
    firstDig s && firstDig s.reverse && adjOk s

/-- Value of a most-significant-first ASCII digit string. -/
def digitsToNat (s : Str) : Nat :=
  s.foldl (fun a c => 10 * a + charVal c) 0

/-- Model of Python's `int(str)` on ASCII input: optional surrounding
whitespace, optional sign, decimal digits with single interior
underscores; `none` where Python raises `ValueError`.  (Python also
accepts non-ASCII decimal digits; the codec only ever meets ASCII.) -/
def pyIntCore : Str → Option Int
  | [] => none
  | c :: rest =>
    if c = '+' then
      if digitsOk rest then some (Int.ofNat (digitsToNat (rest.filter (fun x => x != '_')))) else none
    else if c = '-' then
      if digitsOk rest then some (-(Int.ofNat (digitsToNat (rest.filter (fun x => x != '_'))))) else none
    else
      if digitsOk (c :: rest) then
        some (Int.ofNat (digitsToNat ((c :: rest).filter (fun x => x != '_'))))
      else none

/-- See `pyIntCore`: strip whitespace, then parse sign and digit groups. -/
def pyInt (s : Str) : Option Int := pyIntCore (stripWs s)

/-- Decimal digit character of a value `< 10`. -/
def digitCh : Nat → Char
  | 0 => '0' | 1 => '1' | 2 => '2' | 3 => '3' | 4 => '4'
  | 5 => '5' | 6 => '6' | 7 => '7' | 8 => '8' | 9 => '9'
  | _ => '*'

/-- Least-significant-first decimal digits of `n`, driven by fuel so that it
reduces by `rfl`; `fuel ≥ n` is always enough. -/
def digitsRevFuel : Nat → Nat → Str
  | 0, _ => []
  | fuel + 1, n => if n = 0 then [] else digitCh (n % 10) :: digitsRevFuel fuel (n / 10)

/-- Model of Python's `str(n)` for a natural number (the source only
stringifies the naturals `idx` and `total` in its f-string). -/
def pyStrNat (n : Nat) : Str :=
  if n = 0 then ['0'] else (digitsRevFuel n n).reverse

/-- Lowercase-hex-digit test; `uuid.uuid4().hex` consists of such
characters. -/
def isHexDig (c : Char) : Bool :=
  isDig c || (97 ≤ c.toNat && c.toNat ≤ 102)

/-- Model of Python's `s.split(sep, maxsplit)`: split at the first
`maxsplit` occurrences of `sep`, the last piece absorbing the rest. -/
def pySplitMax (sep : Char) : Nat → Str → List Str
  | 0, s => [s]
  | m + 1, s =>
    let pre := s.takeWhile (fun c => c != sep)
    match s.dropWhile (fun c => c != sep) with
    | [] => [s]
    | _ :: tl => pre :: pySplitMax sep m tl

/-- Fuel-driven worker for `chunk_text`'s slicing loop
(`[text[i:i+size] for i in range(0, len(text), size)]`); `fuel ≥ l.length`
makes it total for `size ≥ 1`. -/
def chunksOfFuel (size : Nat) : Nat → Str → List Str
  | 0, _ => []
  | fuel + 1, l => if l.isEmpty then [] else l.take size :: chunksOfFuel size fuel (l.drop size)

/-! ### The codec, translated from `services/qr_tools.py` -/

/-- `chunk_text` (qr_tools.py lines 17-20): raises
`ValueError("chunk_size must be positive")` for `size <= 0`, otherwise
slices the text into contiguous pieces of `size` characters. -/
def chunk_text (text : Str) (size : Int) : Except QrError (List Str) :=
  if size ≤ 0 then .error .chunkSizeNotPositive
  else .ok (chunksOfFuel size.toNat text.length text)

/-- `maybe_encrypt` (lines 95-100): `if not passphrase: return text` — both
`None` and the empty string are falsy — else Fernet-encrypt under the
passphrase-derived key. -/
def maybe_encrypt (F : FernetScheme) (text : Str) (passphrase : Option Str) : Str :=
  match passphrase with
  | none => text
  | some p => if p.isEmpty then text else F.encrypt p text

/-- `maybe_decrypt` (lines 103-112): `if not passphrase: return text, None`;
otherwise authenticated decryption, `InvalidToken` becoming the error
`"Decryption failed. Wrong passphrase or corrupted data."`. -/
def maybe_decrypt (F : FernetScheme) (text : Str) (passphrase : Option Str) :
    Option Str × Option QrError :=
  match passphrase with
  | none => (some text, none)
  | some p =>
    if p.isEmpty then (some text, none)
    else
      match F.decrypt p text with
      | some plain => (some plain, none)
      | none => (none, some .decryptionFailed)

/-- `wrap_payload_with_checksum` (lines 117-128): serialize
`{"hash": sha256(text), "text": text}`. -/
def wrap_payload_with_checksum (J : JsonCodec) (H : HashFn) (text : Str) : Str :=
  J.dumps (H text) text

/-- Python `dict.get` on the dict `json.loads` builds from an object's
fields: a later duplicate key overwrites an earlier one. -/
def pyGet (fields : List (Str × JsonVal)) (k : Str) : Option JsonVal :=
  (fields.reverse.find? (fun kv => kv.1 == k)).map (fun kv => kv.2)

/-- `unwrap_and_verify_payload` (lines 131-160): parse the payload as the
`{"hash", "text"}` JSON wrapper; anything that is not JSON, not an object,
or lacks both string fields is legacy plain text (no error); otherwise the
recomputed SHA-256 of `text` must equal the stored hash. -/
def unwrap_and_verify_payload (J : JsonCodec) (H : HashFn) (payload : Str) :
    Option Str × Option Str × Option QrError :=
  match J.loads payload with
  | none => (some payload, none, none)
  | some obj =>
    match obj with
    | .jobj fields =>
      match pyGet fields hashKey, pyGet fields textKey with
      | some (.jstr sha_stored), some (.jstr text) =>
        if H text ≠ sha_stored then (none, some sha_stored, some .integrityMismatch)
        else (some text, some sha_stored, none)
      | _, _ => (some payload, none, none)
    | _ => (some payload, none, none)

/-- The frame string `f"{msg_id}|{idx}|{total}|{chunk}"` built by
`_build_big_qr_image` (line 172). -/
def mkFrameStr (msgId : Str) (idx total : Nat) (chunk : Str) : Str :=
  msgId ++ '|' :: (pyStrNat idx ++ '|' :: (pyStrNat total ++ '|' :: chunk))

/-- The per-chunk loop `for idx, chunk in enumerate(chunks)` of
`_build_big_qr_image` (lines 170-176), keeping the frame string each QR
symbol carries. -/
def buildFrameStrs (msgId : Str) (total : Nat) : Nat → List Str → List Str
  | _, [] => []
  | start, c :: cs => mkFrameStr msgId start total c :: buildFrameStrs msgId total (start + 1) cs

/-- `encode_text_to_big_qr_file` (lines 196-207) composed with
`_build_big_qr_image` (lines 165-178): wrap with checksum, optionally
encrypt, chunk, frame.  The returned PNG is modelled by the list of frame
strings its QR symbols carry; `tile_images` raises
`ValueError("No images to tile")` when there are no chunks.  The random
`msg_id = uuid.uuid4().hex[:8]` is passed explicitly. -/
def encode_text_to_big_qr_file (J : JsonCodec) (F : FernetScheme) (H : HashFn)
    (msgId : Str) (text : Str) (chunk_size : Int) (passphrase : Option Str) :
    Except QrError (List Str) :=
  let wrapped := wrap_payload_with_checksum J H text
  let payload := maybe_encrypt F wrapped passphrase
  match chunk_text payload chunk_size with
  | .error e => .error e
  | .ok chunks =>
    if chunks.isEmpty then .error .noImagesToTile
    else .ok (buildFrameStrs msgId chunks.length 0 chunks)

/-- The per-symbol parsing step of `_decode_big_image` (lines 219-234):
split on `"|"` with `maxsplit=3`, require exactly four parts, parse
`idx`/`total` with `int()`; any failure is `none` (the bare `except:
continue`). -/
def parse_frame (s : Str) : Option Frame :=
  match pySplitMax '|' 3 s with
  | [mid, idxs, totals, chunk] =>
    match pyInt idxs, pyInt totals with
    | some i, some t => some ⟨mid, i, t, chunk⟩
    | _, _ => none
  | _ => none

/-- One overwrite `parts[idx] = chunk` of the parts dict. -/
def updPart (p : Int → Option Str) (fr : Frame) : Int → Option Str :=
  fun i => if i = fr.idx then some fr.chunk else p i

/-- One iteration of the grouping loop of `_decode_big_image` (lines
229-232): insert the frame into the insertion-ordered `messages` dict,
keeping the `total` of the first frame seen for its `msg_id`. -/
def assocUpdate : List (Str × Int × (Int → Option Str)) → Frame →
    List (Str × Int × (Int → Option Str))
  | [], fr => [(fr.msgId, fr.total, updPart (fun _ => none) fr)]
  | (k, t, p) :: rest, fr =>
    if k = fr.msgId then (k, t, updPart p fr) :: rest
    else (k, t, p) :: assocUpdate rest fr

/-- The comprehension `[i for i in range(total) if i not in parts]`
(line 243). -/
def missingIndices (total : Nat) (parts : Int → Option Str) : List Int :=
  ((List.range total).map Int.ofNat).filter (fun i => (parts i).isNone)

/-- The join `"".join(parts[i] for i in range(total))` (line 247). -/
def joinedPayload (total : Nat) (parts : Int → Option Str) : Str :=
  ((List.range total).map (fun i => (parts (Int.ofNat i)).getD [])).flatten

/-- `_decode_big_image` (lines 212-248) on the strings the scanner returned:
no symbols at all is `"No QR codes found."`; no parsable frame is
`"Invalid QR format."`; otherwise the first message id's group must cover
`range(total)`, else `f"Missing QR chunks: {missing}"`; on success the
chunks are joined in index order. -/
def _decode_big_image (scans : List Str) : Except QrError Str :=
  if scans.isEmpty then .error .noQRCodes
  else
    let frames := scans.filterMap parse_frame
    match frames.foldl assocUpdate [] with
    | [] => .error .invalidFormat
    | (_, total, parts) :: _ =>
      let missing := missingIndices total.toNat parts
      if missing.isEmpty then .ok (joinedPayload total.toNat parts)
      else .error (.missingChunks missing)

/-- `decode_big_qr_to_text` (lines 251-280) from the scanner's output
onwards (`Image.open` and `decode_qr` are the external raster boundary):
reassemble, optionally decrypt, unwrap and verify; returns the
`(text, sha256_hex, error)` triple of the source. -/
def decode_big_qr_to_text (J : JsonCodec) (F : FernetScheme) (H : HashFn)
    (scans : List Str) (passphrase : Option Str) :
    Option Str × Option Str × Option QrError :=
  match _decode_big_image scans with
  | .error e => (none, none, some e)
  | .ok payload =>
    match maybe_decrypt F payload passphrase with
    | (_, some e) => (none, none, some e)
    | (w, none) =>
      match unwrap_and_verify_payload J H (w.getD []) with
      | (_, sha_hex, some e) => (none, sha_hex, some e)
      | (t, sha_hex, none) => (t, sha_hex, none)

/-! ### Specification-side views -/

/-- The envelope shape check of `unwrap_and_verify_payload` as a single
classifier: `some (hash, text)` exactly when the parsed value is an object
whose `"hash"` and `"text"` fields are both strings. -/
def envelopeShape : JsonVal → Option (Str × Str)
  | .jobj fields =>
    match pyGet fields hashKey, pyGet fields textKey with
    | some (.jstr sha), some (.jstr t) => some (sha, t)
    | _, _ => none
  | _ => none

/-- The parts dict accumulated for the message id `mid`: frames of other
message ids are ignored, later frames with the same index overwrite
earlier ones. -/
def groupParts (mid : Str) (frames : List Frame) : Int → Option Str :=
  (frames.filter (fun g => decide (g.msgId = mid))).foldl updPart (fun _ => none)

/-- The frames produced by encoding `chunks` under one message id, as
parsed values. -/
def frameList (mid : Str) (total : Nat) : Nat → List Str → List Frame
  | _, [] => []
  | start, c :: cs => ⟨mid, Int.ofNat start, Int.ofNat total, c⟩ :: frameList mid total (start + 1) cs

/-! ### Concrete instances for witnesses

Tiny executable stand-ins for the external JSON and Fernet libraries, used
only to instantiate the boundary parameters at the concrete points the
witnesses evaluate. -/

/-- Witness serializer: `(hash:text)`. -/
def wDumps (h t : Str) : Str := '(' :: (h ++ ':' :: t) ++ [')']

/-- Witness deserializer: inverts `wDumps` on colon-free fields and fails on
anything not parenthesised. -/
def wLoads (s : Str) : Option JsonVal :=
  match s with
  | '(' :: rest =>
    if rest.getLast? = some ')' then
      let inner := rest.dropLast
      match inner.dropWhile (fun c => c != ':') with
      | _ :: tl =>
        some (.jobj [(hashKey, .jstr (inner.takeWhile (fun c => c != ':'))), (textKey, .jstr tl)])
      | [] => some (.jstr inner)
    else none
  | _ => none

/-- Witness JSON codec. -/
def wJ : JsonCodec := ⟨wDumps, wLoads⟩

/-- Witness Fernet scheme: token = passphrase, separator, plaintext;
decryption succeeds only under the same passphrase. -/
def wF : FernetScheme :=
  ⟨fun p t => p ++ '!' :: t,
   fun p s => if s.take (p.length + 1) = p ++ ['!'] then some (s.drop (p.length + 1)) else none⟩

/-- Witness hash function: the identity. -/
def wH : HashFn := fun t => t

/-! ### Digit and `int()` lemmas -/

theorem charVal_digitCh {d : Nat} (h : d < 10) : charVal (digitCh d) = d := by
  interval_cases d <;> decide

theorem isDig_digitCh {d : Nat} (h : d < 10) : isDig (digitCh d) = true := by
  interval_cases d <;> decide

theorem isDig_bounds {c : Char} (h : isDig c = true) : 48 ≤ c.toNat ∧ c.toNat ≤ 57 := by
  simpa [isDig, Bool.and_eq_true, decide_eq_true_eq] using h

theorem ne_of_isDig {c x : Char} (h : isDig c = true) (hx : isDig x = false) : c ≠ x := by
  intro hc
  rw [hc] at h
  rw [h] at hx
  exact Bool.noConfusion hx

theorem pyWs_eq_false_of_isDig {c : Char} (h : isDig c = true) : pyWs c = false := by
  have hb := isDig_bounds h
  have hne : ∀ x : Char, x.toNat < 48 → (c == x) = false := by
    intro x hx
    apply beq_eq_false_iff_ne.mpr
    intro hcx
    rw [hcx] at hb
    omega
  simp only [pyWs, Bool.or_eq_false_iff]
  refine ⟨⟨⟨⟨⟨hne ' ' (by decide), hne '\t' (by decide)⟩, hne '\n' (by decide)⟩,
    hne '\r' (by decide)⟩, hne '\x0b' (by decide)⟩, hne '\x0c' (by decide)⟩

theorem stripWs_of_digits (s : Str) (hne : s ≠ []) (h : ∀ c ∈ s, isDig c = true) :
    stripWs s = s := by
  match s, hne with
  | c :: cs, _ =>
    unfold stripWs
    rw [List.dropWhile_cons, if_neg (by simp [pyWs_eq_false_of_isDig (h c (by simp))])]
    cases hr : (c :: cs).reverse with
    | nil => exact absurd (List.reverse_eq_nil_iff.mp hr) (by simp)
    | cons d ds =>
      have hd : isDig d = true := by
        apply h
        have : d ∈ (c :: cs).reverse := by rw [hr]; exact List.mem_cons_self d ds
        exact List.mem_reverse.mp this
      rw [List.dropWhile_cons, if_neg (by simp [pyWs_eq_false_of_isDig hd]), ← hr,
        List.reverse_reverse]

theorem adjOk_of_digits : ∀ s : Str, (∀ c ∈ s, isDig c = true) → adjOk s = true := by
  intro s
  induction s with
  | nil => intro _; rfl
  | cons c1 tl ih =>
    intro h
    cases tl with
    | nil => rfl
    | cons c2 rest =>
      rw [adjOk]
      have h1 : (c1 == '_') = false :=
        beq_eq_false_iff_ne.mpr (ne_of_isDig (h c1 (by simp)) (by decide))
      rw [h1]
      simp only [Bool.false_and, Bool.not_false, Bool.true_and]
      exact ih (fun c hc => h c (List.mem_cons_of_mem _ hc))

theorem digitsOk_of_digits (s : Str) (hne : s ≠ []) (h : ∀ c ∈ s, isDig c = true) :
    digitsOk s = true := by
  match s, hne with
  | c :: cs, _ =>
    simp only [digitsOk, Bool.and_eq_true]
    refine ⟨⟨⟨⟨by simp, ?_⟩, ?_⟩, ?_⟩, adjOk_of_digits _ h⟩
    · rw [List.all_eq_true]
      intro x hx
      rw [h x hx]
      rfl
    · exact h c (by simp)
    · cases hr : (c :: cs).reverse with
      | nil => exact absurd (List.reverse_eq_nil_iff.mp hr) (by simp)
      | cons d ds =>
        show isDig d = true
        apply h
        have : d ∈ (c :: cs).reverse := by rw [hr]; exact List.mem_cons_self d ds
        exact List.mem_reverse.mp this

theorem filter_underscore_of_digits (s : Str) (h : ∀ c ∈ s, isDig c = true) :
    s.filter (fun x => x != '_') = s := by
  apply List.filter_eq_self.mpr
  intro c hc
  exact bne_iff_ne.mpr (ne_of_isDig (h c hc) (by decide))

theorem digitsRevFuel_eq : ∀ fuel n, n ≤ fuel → digitsRevFuel fuel n = (Nat.digits 10 n).map digitCh := by
  intro fuel
  induction fuel with
  | zero =>
    intro n hn
    interval_cases n
    simp [digitsRevFuel]
  | succ f ih =>
    intro n hn
    by_cases h0 : n = 0
    · subst h0
      simp [digitsRevFuel]
    · rw [digitsRevFuel, if_neg h0,
        Nat.digits_def' (by norm_num : (1 : Nat) < 10) (Nat.pos_of_ne_zero h0), List.map_cons]
      have hlt : n / 10 < n := Nat.div_lt_self (Nat.pos_of_ne_zero h0) (by norm_num)
      rw [ih (n / 10) (by omega)]

theorem pyStrNat_eq (n : Nat) :
    pyStrNat n = if n = 0 then ['0'] else ((Nat.digits 10 n).map digitCh).reverse := by
  unfold pyStrNat
  rw [digitsRevFuel_eq n n le_rfl]

theorem isDig_mem_pyStrNat {n : Nat} {c : Char} (hc : c ∈ pyStrNat n) : isDig c = true := by
  rw [pyStrNat_eq] at hc
  by_cases h0 : n = 0
  · subst h0
    simp at hc
    subst hc
    decide
  · rw [if_neg h0, List.mem_reverse, List.mem_map] at hc
    obtain ⟨d, hd, rfl⟩ := hc
    exact isDig_digitCh (Nat.digits_lt_base (by norm_num) hd)

theorem pyStrNat_ne_nil (n : Nat) : pyStrNat n ≠ [] := by
  rw [pyStrNat_eq]
  by_cases h0 : n = 0
  · simp [h0]
  · rw [if_neg h0]
    simp [Nat.digits_ne_nil_iff_ne_zero.mpr h0]

theorem foldl_digits_acc (ds : List Nat) : ∀ acc, (∀ d ∈ ds, d < 10) →
    List.foldl (fun a c => 10 * a + charVal c) acc ((ds.map digitCh).reverse) =
      acc * 10 ^ ds.length + Nat.ofDigits 10 ds := by
  induction ds with
  | nil =>
    intro acc _
    simp [Nat.ofDigits]
  | cons d tl ih =>
    intro acc h
    rw [List.map_cons, List.reverse_cons, List.foldl_append,
      ih acc (fun x hx => h x (List.mem_cons_of_mem _ hx))]
    simp only [List.foldl_cons, List.foldl_nil, List.length_cons, Nat.ofDigits_cons]
    rw [charVal_digitCh (h d (List.mem_cons_self _ _))]
    ring

theorem digitsToNat_pyStrNat (n : Nat) : digitsToNat (pyStrNat n) = n := by
  rw [pyStrNat_eq]
  by_cases h0 : n = 0
  · subst h0
    decide
  · rw [if_neg h0]
    unfold digitsToNat
    rw [foldl_digits_acc _ 0 (fun d hd => Nat.digits_lt_base (by norm_num) hd)]
    simp [Nat.ofDigits_digits]

theorem pyIntCore_digits (s : Str) (hne : s ≠ []) (h : ∀ c ∈ s, isDig c = true) :
    pyIntCore s = some (Int.ofNat (digitsToNat s)) := by
  match s, hne with
  | c :: rest, _ =>
    have hdc : isDig c = true := h c (by simp)
    rw [pyIntCore, if_neg (ne_of_isDig hdc (by decide)), if_neg (ne_of_isDig hdc (by decide)),
      if_pos (digitsOk_of_digits _ (by simp) h), filter_underscore_of_digits _ h]

theorem pyInt_pyStrNat (n : Nat) : pyInt (pyStrNat n) = some (Int.ofNat n) := by
  have hd : ∀ c ∈ pyStrNat n, isDig c = true := fun c hc => isDig_mem_pyStrNat hc
  unfold pyInt
  rw [stripWs_of_digits _ (pyStrNat_ne_nil n) hd,
    pyIntCore_digits _ (pyStrNat_ne_nil n) hd, digitsToNat_pyStrNat]

theorem not_pipe_mem_pyStrNat (n : Nat) : '|' ∉ pyStrNat n := by
  intro h
  exact absurd (isDig_mem_pyStrNat h) (by decide)

/-! ### Frame split lemmas -/

theorem takeWhile_append_sep {sep : Char} (a r : Str) (ha : sep ∉ a) :
    (a ++ sep :: r).takeWhile (fun c => c != sep) = a := by
  induction a with
  | nil => simp [List.takeWhile_cons]
  | cons c cs ih =>
    have hc : (c != sep) = true := bne_iff_ne.mpr (fun h => ha (h ▸ List.mem_cons_self c cs))
    simp only [List.cons_append, List.takeWhile_cons, hc, if_true]
    rw [ih (fun h => ha (List.mem_cons_of_mem _ h))]

theorem dropWhile_append_sep {sep : Char} (a r : Str) (ha : sep ∉ a) :
    (a ++ sep :: r).dropWhile (fun c => c != sep) = sep :: r := by
  induction a with
  | nil => simp [List.dropWhile_cons]
  | cons c cs ih =>
    have hc : (c != sep) = true := bne_iff_ne.mpr (fun h => ha (h ▸ List.mem_cons_self c cs))
    simp only [List.cons_append, List.dropWhile_cons, hc, if_true]
    exact ih (fun h => ha (List.mem_cons_of_mem _ h))

theorem pySplitMax_step {sep : Char} (m : Nat) (a r : Str) (ha : sep ∉ a) :
    pySplitMax sep (m + 1) (a ++ sep :: r) = a :: pySplitMax sep m r := by
  rw [pySplitMax, dropWhile_append_sep a r ha]
  simp only [takeWhile_append_sep a r ha]

theorem pySplitMax_quad (a b c d : Str) (ha : '|' ∉ a) (hb : '|' ∉ b) (hc : '|' ∉ c) :
    pySplitMax '|' 3 (a ++ '|' :: (b ++ '|' :: (c ++ '|' :: d))) = [a, b, c, d] := by
  rw [pySplitMax_step 2 a _ ha, pySplitMax_step 1 b _ hb, pySplitMax_step 0 c _ hc]
  rfl

theorem parse_frame_mkFrameStr (mid : Str) (i t : Nat) (chunk : Str) (hm : '|' ∉ mid) :
    parse_frame (mkFrameStr mid i t chunk) = some ⟨mid, Int.ofNat i, Int.ofNat t, chunk⟩ := by
  unfold parse_frame mkFrameStr
  rw [pySplitMax_quad mid (pyStrNat i) (pyStrNat t) chunk hm (not_pipe_mem_pyStrNat i)
    (not_pipe_mem_pyStrNat t)]
  simp only [pyInt_pyStrNat]

/-! ### Chunker lemmas -/

theorem chunksOfFuel_flatten (size : Nat) (hs : 0 < size) :
    ∀ fuel l, l.length ≤ fuel → (chunksOfFuel size fuel l).flatten = l := by
  intro fuel
  induction fuel with
  | zero =>
    intro l hl
    rw [List.length_eq_zero.mp (Nat.le_zero.mp hl)]
    rfl
  | succ f ih =>
    intro l hl
    rw [chunksOfFuel]
    by_cases h0 : l.isEmpty
    · rw [if_pos h0, List.isEmpty_iff.mp h0]
      rfl
    · rw [if_neg h0, List.flatten_cons,
        ih (l.drop size) (by rw [List.length_drop]; omega), List.take_append_drop]

theorem chunksOfFuel_length (size : Nat) (hs : 0 < size) :
    ∀ fuel l, l.length ≤ fuel →
      (chunksOfFuel size fuel l).length = (l.length + size - 1) / size := by
  intro fuel
  induction fuel with
  | zero =>
    intro l hl
    rw [List.length_eq_zero.mp (Nat.le_zero.mp hl)]
    simp [chunksOfFuel, Nat.div_eq_of_lt (by omega : size - 1 < size)]
  | succ f ih =>
    intro l hl
    rw [chunksOfFuel]
    by_cases h0 : l.isEmpty
    · rw [if_pos h0, List.isEmpty_iff.mp h0]
      simp [Nat.div_eq_of_lt (by omega : size - 1 < size)]
    · rw [if_neg h0, List.length_cons,
        ih (l.drop size) (by rw [List.length_drop]; omega), List.length_drop]
      have hpos : 0 < l.length := List.length_pos.mpr (fun he => h0 (by rw [he]; rfl))
      by_cases hle : l.length ≤ size
      · rw [show l.length - size = 0 from by omega]
        rw [Nat.div_eq_of_lt (by omega : 0 + size - 1 < size)]
        rw [Nat.div_eq_of_lt_le (by omega : 1 * size ≤ l.length + size - 1)
          (by omega : l.length + size - 1 < (1 + 1) * size)]
      · have h1 : l.length - size + size - 1 = l.length - 1 - size + size := by omega
        have h2 : l.length + size - 1 = l.length - 1 + size := by omega
        rw [h1, h2, Nat.add_div_right _ hs, Nat.add_div_right _ hs]
        have h4 : (l.length - 1 - size) / size + 1 = (l.length - 1) / size := by
          rw [← Nat.add_div_right _ hs, Nat.sub_add_cancel (by omega : size ≤ l.length - 1)]
        omega

theorem chunksOfFuel_le (size : Nat) :
    ∀ fuel l c, c ∈ chunksOfFuel size fuel l → c.length ≤ size := by
  intro fuel
  induction fuel with
  | zero =>
    intro l c hc
    exact absurd hc (by simp [chunksOfFuel])
  | succ f ih =>
    intro l c hc
    rw [chunksOfFuel] at hc
    by_cases h0 : l.isEmpty
    · rw [if_pos h0] at hc
      exact absurd hc (by simp)
    · rw [if_neg h0] at hc
      rcases List.mem_cons.mp hc with h | h
      · rw [h]
        exact le_trans (List.length_take_le _ _) le_rfl
      · exact ih _ _ h

theorem chunksOfFuel_single (size : Nat) (_hs : 0 < size) (l : Str) (hne : l ≠ [])
    (hle : l.length ≤ size) : ∀ fuel, l.length ≤ fuel → chunksOfFuel size fuel l = [l] := by
  intro fuel hf
  match fuel, hf with
  | f + 1, _ =>
    rw [chunksOfFuel, if_neg (fun h => hne (List.isEmpty_iff.mp h)), List.take_of_length_le hle,
      List.drop_eq_nil_of_le hle]
    match f with
    | 0 => rfl
    | g + 1 => rfl
  | 0, hf0 =>
    exact absurd (List.length_eq_zero.mp (Nat.le_zero.mp hf0)) hne

theorem chunksOfFuel_ne_nil (size : Nat) (hs : 0 < size) (l : Str) (hne : l ≠ [])
    (fuel : Nat) (hf : l.length ≤ fuel) : chunksOfFuel size fuel l ≠ [] := by
  intro h
  apply hne
  rw [← chunksOfFuel_flatten size hs fuel l hf, h]
  rfl

/-! ### Reassembly lemmas -/

theorem assocUpdate_ne_nil (acc : List (Str × Int × (Int → Option Str))) (f : Frame) :
    assocUpdate acc f ≠ [] := by
  match acc with
  | [] => simp [assocUpdate]
  | (k, t, p) :: rest =>
    rw [assocUpdate]
    by_cases h : k = f.msgId
    · rw [if_pos h]
      simp
    · rw [if_neg h]
      simp

theorem foldl_assocUpdate_ne_nil :
    ∀ (frames : List Frame) (acc : List (Str × Int × (Int → Option Str))), acc ≠ [] →
      frames.foldl assocUpdate acc ≠ [] := by
  intro frames
  induction frames with
  | nil => exact fun acc h => h
  | cons f fs ih =>
    intro acc h
    rw [List.foldl_cons]
    exact ih _ (assocUpdate_ne_nil acc f)

theorem foldl_assocUpdate_head :
    ∀ (frames : List Frame) (k : Str) (t : Int) (p : Int → Option Str) rest,
      (frames.foldl assocUpdate ((k, t, p) :: rest)).head? =
        some (k, t, (frames.filter (fun g => decide (g.msgId = k))).foldl updPart p) := by
  intro frames
  induction frames with
  | nil => intro k t p rest; rfl
  | cons f fs ih =>
    intro k t p rest
    rw [List.foldl_cons, assocUpdate, List.filter_cons]
    by_cases h : k = f.msgId
    · rw [if_pos h]
      have hd : decide (f.msgId = k) = true := decide_eq_true h.symm
      rw [hd, if_pos rfl, List.foldl_cons]
      exact ih k t (updPart p f) rest
    · rw [if_neg h]
      have hd : decide (f.msgId = k) = false := decide_eq_false (fun hx => h hx.symm)
      rw [hd]
      simp only [Bool.false_eq_true, if_false]
      exact ih k t p (assocUpdate rest f)

theorem frameList_msgId (mid : Str) (total : Nat) :
    ∀ chunks start g, g ∈ frameList mid total start chunks → g.msgId = mid := by
  intro chunks
  induction chunks with
  | nil => intro start g hg; exact absurd hg (by simp [frameList])
  | cons c cs ih =>
    intro start g hg
    rw [frameList] at hg
    rcases List.mem_cons.mp hg with h | h
    · rw [h]
    · exact ih (start + 1) g h

theorem filterMap_parse_buildFrameStrs (mid : Str) (hm : '|' ∉ mid) (total : Nat) :
    ∀ chunks start,
      (buildFrameStrs mid total start chunks).filterMap parse_frame =
        frameList mid total start chunks := by
  intro chunks
  induction chunks with
  | nil => intro start; rfl
  | cons c cs ih =>
    intro start
    rw [buildFrameStrs, frameList, List.filterMap_cons, parse_frame_mkFrameStr mid start total c hm,
      ih (start + 1)]

theorem foldl_updPart_lt (mid : Str) (total : Nat) :
    ∀ chunks start (p : Int → Option Str) (i : Int), i < Int.ofNat start →
      ((frameList mid total start chunks).foldl updPart p) i = p i := by
  intro chunks
  induction chunks with
  | nil => intro start p i _; rfl
  | cons c cs ih =>
    intro start p i hi
    rw [frameList, List.foldl_cons,
      ih (start + 1) _ i (lt_trans hi (Int.ofNat_lt.mpr (Nat.lt_succ_self start)))]
    simp only [updPart]
    rw [if_neg (fun h => by rw [h] at hi; exact lt_irrefl _ hi)]

theorem foldl_updPart_get (mid : Str) (total : Nat) :
    ∀ chunks start (p : Int → Option Str) j (hj : j < chunks.length),
      ((frameList mid total start chunks).foldl updPart p) (Int.ofNat (start + j)) =
        some (chunks.get ⟨j, hj⟩) := by
  intro chunks
  induction chunks with
  | nil =>
    intro start p j hj
    exact absurd hj (by simp)
  | cons c cs ih =>
    intro start p j hj
    rw [frameList, List.foldl_cons]
    cases j with
    | zero =>
      rw [foldl_updPart_lt mid total cs (start + 1) _ (Int.ofNat (start + 0))
        (show Int.ofNat (start + 0) < Int.ofNat (start + 1) from Int.ofNat_lt.mpr (by omega))]
      simp only [updPart]
      rw [if_pos (by simp)]
      rfl
    | succ j' =>
      rw [show start + (j' + 1) = start + 1 + j' from by omega]
      rw [ih (start + 1) _ j' (by simpa using hj)]
      rfl

theorem decode_buildFrameStrs (mid : Str) (hm : '|' ∉ mid) (chunks : List Str)
    (hne : chunks ≠ []) :
    _decode_big_image (buildFrameStrs mid chunks.length 0 chunks) = .ok chunks.flatten := by
  match chunks, hne with
  | c :: cs, _ =>
    have hb : buildFrameStrs mid (c :: cs).length 0 (c :: cs) =
        mkFrameStr mid 0 (c :: cs).length c :: buildFrameStrs mid (c :: cs).length 1 cs := rfl
    have hframes : (buildFrameStrs mid (c :: cs).length 0 (c :: cs)).filterMap parse_frame =
        frameList mid (c :: cs).length 0 (c :: cs) :=
      filterMap_parse_buildFrameStrs mid hm (c :: cs).length (c :: cs) 0
    have hfl : frameList mid (c :: cs).length 0 (c :: cs) =
        (⟨mid, Int.ofNat 0, Int.ofNat (c :: cs).length, c⟩ : Frame) ::
          frameList mid (c :: cs).length 1 cs := rfl
    have hfilter : (frameList mid (c :: cs).length 1 cs).filter
        (fun g => decide (g.msgId = mid)) = frameList mid (c :: cs).length 1 cs :=
      List.filter_eq_self.mpr
        (fun g hg => decide_eq_true (frameList_msgId mid (c :: cs).length cs 1 g hg))
    have hP : ∀ j (hj : j < (c :: cs).length),
        ((frameList mid (c :: cs).length 0 (c :: cs)).foldl updPart (fun _ => none))
          (Int.ofNat j) = some ((c :: cs).get ⟨j, hj⟩) := by
      intro j hj
      have := foldl_updPart_get mid (c :: cs).length (c :: cs) 0 (fun _ => none) j hj
      simpa using this
    have hhead : ((frameList mid (c :: cs).length 0 (c :: cs)).foldl assocUpdate []).head? =
        some (mid, Int.ofNat (c :: cs).length,
          (frameList mid (c :: cs).length 0 (c :: cs)).foldl updPart (fun _ => none)) := by
      rw [hfl, List.foldl_cons]
      rw [show assocUpdate [] (⟨mid, Int.ofNat 0, Int.ofNat (c :: cs).length, c⟩ : Frame) =
        [(mid, Int.ofNat (c :: cs).length,
          updPart (fun _ => none) ⟨mid, Int.ofNat 0, Int.ofNat (c :: cs).length, c⟩)] from rfl]
      rw [foldl_assocUpdate_head, hfilter]
      rfl
    have hne2 : (frameList mid (c :: cs).length 0 (c :: cs)).foldl assocUpdate [] ≠ [] := by
      rw [hfl, List.foldl_cons]
      exact foldl_assocUpdate_ne_nil _ _ (by simp [assocUpdate])
    have hmiss : missingIndices (c :: cs).length
        ((frameList mid (c :: cs).length 0 (c :: cs)).foldl updPart (fun _ => none)) = [] := by
      unfold missingIndices
      apply List.filter_eq_nil_iff.mpr
      intro i hi
      rw [List.mem_map] at hi
      obtain ⟨j, hj, rfl⟩ := hi
      rw [List.mem_range] at hj
      rw [hP j hj]
      simp
    have hjoin : joinedPayload (c :: cs).length
        ((frameList mid (c :: cs).length 0 (c :: cs)).foldl updPart (fun _ => none)) =
          (c :: cs).flatten := by
      unfold joinedPayload
      congr 1
      apply List.ext_getElem
      · simp
      · intro i h1 h2
        rw [List.getElem_map, List.getElem_range]
        have hi : i < (c :: cs).length := by simpa using h1
        rw [hP i hi]
        simp
    cases hfold : (frameList mid (c :: cs).length 0 (c :: cs)).foldl assocUpdate [] with
    | nil => exact absurd hfold hne2
    | cons e ms =>
      have he : e = (mid, Int.ofNat (c :: cs).length,
          (frameList mid (c :: cs).length 0 (c :: cs)).foldl updPart (fun _ => none)) := by
        rw [hfold] at hhead
        exact Option.some.inj (by simpa using hhead)
      unfold _decode_big_image
      rw [if_neg (by rw [hb]; simp)]
      simp only [hframes, hfold, he]
      rw [show (Int.ofNat (c :: cs).length).toNat = (c :: cs).length from Int.toNat_ofNat _]
      rw [hmiss]
      simp only [List.isEmpty_nil, if_true]
      rw [hjoin]

/-! ### Envelope and encryption round-trip lemmas -/

theorem pyGet_pair_hash (h t : Str) :
    pyGet [(hashKey, .jstr h), (textKey, .jstr t)] hashKey = some (.jstr h) := rfl

theorem pyGet_pair_text (h t : Str) :
    pyGet [(hashKey, .jstr h), (textKey, .jstr t)] textKey = some (.jstr t) := rfl

theorem unwrap_wrap (J : JsonCodec) (H : HashFn) (text : Str)
    (hJ : J.loads (J.dumps (H text) text) =
      some (.jobj [(hashKey, .jstr (H text)), (textKey, .jstr text)])) :
    unwrap_and_verify_payload J H (wrap_payload_with_checksum J H text) =
      (some text, some (H text), none) := by
  simp only [unwrap_and_verify_payload, wrap_payload_with_checksum, hJ,
    pyGet_pair_hash, pyGet_pair_text]
  rw [if_neg (fun hc => hc rfl)]

theorem decrypt_encrypt_roundtrip (F : FernetScheme) (w : Str) (pass : Option Str)
    (hF : ∀ p, pass = some p → ¬p.isEmpty = true → F.decrypt p (F.encrypt p w) = some w) :
    maybe_decrypt F (maybe_encrypt F w pass) pass = (some w, none) := by
  cases pass with
  | none => rfl
  | some p =>
    simp only [maybe_encrypt, maybe_decrypt]
    by_cases hp : p.isEmpty
    · rw [if_pos hp, if_pos hp]
    · rw [if_neg hp, if_neg hp, hF p rfl hp]

/-! ### Decode-surface propagation lemmas -/

theorem decode_surface_scanerr (J : JsonCodec) (F : FernetScheme) (H : HashFn)
    (scans : List Str) (pass : Option Str) (e : QrError)
    (h1 : _decode_big_image scans = .error e) :
    decode_big_qr_to_text J F H scans pass = (none, none, some e) := by
  simp only [decode_big_qr_to_text, h1]

theorem decode_surface_decfail (J : JsonCodec) (F : FernetScheme) (H : HashFn)
    (scans : List Str) (pass : Option Str) (payload : Str) (w : Option Str) (e : QrError)
    (h1 : _decode_big_image scans = .ok payload)
    (h2 : maybe_decrypt F payload pass = (w, some e)) :
    decode_big_qr_to_text J F H scans pass = (none, none, some e) := by
  simp only [decode_big_qr_to_text, h1, h2]

theorem decode_surface_ok (J : JsonCodec) (F : FernetScheme) (H : HashFn)
    (scans : List Str) (pass : Option Str) (payload w : Str) (t sha : Option Str)
    (h1 : _decode_big_image scans = .ok payload)
    (h2 : maybe_decrypt F payload pass = (some w, none))
    (h3 : unwrap_and_verify_payload J H w = (t, sha, none)) :
    decode_big_qr_to_text J F H scans pass = (t, sha, none) := by
  simp only [decode_big_qr_to_text, h1, h2, Option.getD_some, h3]

theorem decode_surface_verifyerr (J : JsonCodec) (F : FernetScheme) (H : HashFn)
    (scans : List Str) (pass : Option Str) (payload w : Str) (t sha : Option Str) (e : QrError)
    (h1 : _decode_big_image scans = .ok payload)
    (h2 : maybe_decrypt F payload pass = (some w, none))
    (h3 : unwrap_and_verify_payload J H w = (t, sha, some e)) :
    decode_big_qr_to_text J F H scans pass = (none, sha, some e) := by
  simp only [decode_big_qr_to_text, h1, h2, Option.getD_some, h3]

theorem maybe_encrypt_ne_nil (J : JsonCodec) (F : FernetScheme) (H : HashFn)
    (text : Str) (pass : Option Str)
    (hwne : J.dumps (H text) text ≠ [])
    (hFne : ∀ p, pass = some p → ¬p.isEmpty = true → F.encrypt p (J.dumps (H text) text) ≠ []) :
    maybe_encrypt F (wrap_payload_with_checksum J H text) pass ≠ [] := by
  cases pass with
  | none => exact hwne
  | some p =>
    simp only [maybe_encrypt]
    by_cases hp : p.isEmpty
    · rw [if_pos hp]
      exact hwne
    · rw [if_neg hp]
      exact hFne p rfl hp

theorem encode_text_ok (J : JsonCodec) (F : FernetScheme) (H : HashFn) (mid text : Str)
    (chunk_size : Int) (pass : Option Str) (payload : Str)
    (hp : maybe_encrypt F (wrap_payload_with_checksum J H text) pass = payload)
    (hcs : 0 < chunk_size) (hpne : payload ≠ []) :
    encode_text_to_big_qr_file J F H mid text chunk_size pass =
      .ok (buildFrameStrs mid (chunksOfFuel chunk_size.toNat payload.length payload).length 0
        (chunksOfFuel chunk_size.toNat payload.length payload)) := by
  have h0 : (0 : Nat) < chunk_size.toNat := by omega
  have hchne : chunksOfFuel chunk_size.toNat payload.length payload ≠ [] :=
    chunksOfFuel_ne_nil _ h0 payload hpne _ le_rfl
  have hct : chunk_text payload chunk_size =
      .ok (chunksOfFuel chunk_size.toNat payload.length payload) := by
    unfold chunk_text
    rw [if_neg (by omega : ¬chunk_size ≤ 0)]
  simp only [encode_text_to_big_qr_file, hp, hct]
  rw [if_neg (fun h => hchne (List.isEmpty_iff.mp h))]

/-- **C1**: for every non-empty `text`, positive `chunk_size` and passphrase
(including none and the falsy empty string), decoding the image produced by
encoding returns `(text, sha256(text), no error)`.  The external boundaries
are assumed to behave as their libraries do at the points used: `json.loads`
inverts `json.dumps` on the envelope, Fernet decryption under the same
passphrase inverts encryption and tokens are non-empty, the message id is
the hex string `uuid4().hex[:8]`, and the rendered QR symbols scan back to
the frame strings. -/
theorem c1_round_trip (J : JsonCodec) (F : FernetScheme) (H : HashFn) (mid text : Str)
    (chunk_size : Int) (pass : Option Str)
    (hmid : ∀ c ∈ mid, isHexDig c = true)
    (_htext : text ≠ [])
    (hcs : 0 < chunk_size)
    (hJ : J.loads (J.dumps (H text) text) =
      some (.jobj [(hashKey, .jstr (H text)), (textKey, .jstr text)]))
    (hwne : J.dumps (H text) text ≠ [])
    (hFne : ∀ p, pass = some p → ¬p.isEmpty = true → F.encrypt p (J.dumps (H text) text) ≠ [])
    (hFdec : ∀ p, pass = some p → ¬p.isEmpty = true →
      F.decrypt p (F.encrypt p (J.dumps (H text) text)) = some (J.dumps (H text) text)) :
    (encode_text_to_big_qr_file J F H mid text chunk_size pass).toOption.map
        (fun frames => decode_big_qr_to_text J F H frames pass) =
      some (some text, some (H text), none) := by
  have hm : '|' ∉ mid := fun hmem => absurd (hmid '|' hmem) (by decide)
  have hpne : maybe_encrypt F (wrap_payload_with_checksum J H text) pass ≠ [] :=
    maybe_encrypt_ne_nil J F H text pass hwne hFne
  set payload := maybe_encrypt F (wrap_payload_with_checksum J H text) pass with hpay
  have henc := encode_text_ok J F H mid text chunk_size pass payload rfl hcs hpne
  have h0 : (0 : Nat) < chunk_size.toNat := by omega
  have hchne := chunksOfFuel_ne_nil chunk_size.toNat h0 payload hpne payload.length le_rfl
  have hflat := chunksOfFuel_flatten chunk_size.toNat h0 payload.length payload le_rfl
  have hdec := decode_buildFrameStrs mid hm (chunksOfFuel chunk_size.toNat payload.length payload)
    hchne
  rw [hflat] at hdec
  have hmd : maybe_decrypt F payload pass = (some (wrap_payload_with_checksum J H text), none) := by
    rw [hpay]
    exact decrypt_encrypt_roundtrip F _ pass (fun p hp hpe => hFdec p hp hpe)
  have hun := unwrap_wrap J H text hJ
  have hfin := decode_surface_ok J F H _ pass payload (wrap_payload_with_checksum J H text)
    (some text) (some (H text)) hdec hmd hun
  rw [henc]
  simp only [Except.toOption, Option.map, hfin]

/-- Witness for `c1_round_trip` at a concrete instance: text `"hi"`,
chunk size 3, passphrase `"k"`, the witness boundary instances. -/
theorem c1_round_trip_witness :
    (encode_text_to_big_qr_file wJ wF wH ("ab12".toList) ("hi".toList) 3 (some ['k'])).toOption.map
        (fun frames => decode_big_qr_to_text wJ wF wH frames (some ['k'])) =
      some (some ("hi".toList), some (wH ("hi".toList)), none) :=
  c1_round_trip wJ wF wH ("ab12".toList) ("hi".toList) 3 (some ['k'])
    (by decide) (by decide) (by decide) rfl (by decide)
    (fun p hp _hpe => by injection hp with h; subst h; decide)
    (fun p hp _hpe => by injection hp with h; subst h; decide)

/-- **C2**: when at least one scanned string parses as a frame, reassembly
works on the first message id encountered (that of the first parsed frame),
ignoring all frames with other ids (`groupParts` filters on that id); the
missing indices over `range(total)` are sorted ascending; if any is missing
the result is `MissingChunksError` with exactly that list, otherwise the
selected message's chunks joined in ascending index order. -/
theorem c2_reassembly (scans : List Str) (f : Frame) (fs : List Frame)
    (hparse : scans.filterMap parse_frame = f :: fs) :
    List.Pairwise (· < ·) (missingIndices f.total.toNat (groupParts f.msgId (f :: fs))) ∧
    (missingIndices f.total.toNat (groupParts f.msgId (f :: fs)) ≠ [] →
      _decode_big_image scans =
        .error (.missingChunks (missingIndices f.total.toNat (groupParts f.msgId (f :: fs))))) ∧
    (missingIndices f.total.toNat (groupParts f.msgId (f :: fs)) = [] →
      _decode_big_image scans =
        .ok (joinedPayload f.total.toNat (groupParts f.msgId (f :: fs)))) := by
  have hscne : ¬scans.isEmpty = true := by
    intro h
    rw [List.isEmpty_iff.mp h] at hparse
    exact List.noConfusion hparse
  have hhead : ((f :: fs).foldl assocUpdate []).head? =
      some (f.msgId, f.total, groupParts f.msgId (f :: fs)) := by
    rw [List.foldl_cons,
      show assocUpdate [] f = [(f.msgId, f.total, updPart (fun _ => none) f)] from rfl,
      foldl_assocUpdate_head]
    unfold groupParts
    rw [List.filter_cons, show decide (f.msgId = f.msgId) = true from decide_eq_true rfl]
    rfl
  have hne2 : (f :: fs).foldl assocUpdate [] ≠ [] := by
    rw [List.foldl_cons]
    exact foldl_assocUpdate_ne_nil _ _ (by simp [assocUpdate])
  have hsorted : List.Pairwise (· < ·)
      (missingIndices f.total.toNat (groupParts f.msgId (f :: fs))) := by
    unfold missingIndices
    apply List.Pairwise.filter
    rw [List.pairwise_map]
    exact (List.pairwise_lt_range _).imp (fun h => Int.ofNat_lt.mpr h)
  cases hfold : (f :: fs).foldl assocUpdate [] with
  | nil => exact absurd hfold hne2
  | cons e ms =>
    have he : e = (f.msgId, f.total, groupParts f.msgId (f :: fs)) := by
      rw [hfold] at hhead
      exact Option.some.inj (by simpa using hhead)
    refine ⟨hsorted, ?_, ?_⟩
    · intro hmne
      unfold _decode_big_image
      rw [if_neg hscne]
      simp only [hparse, hfold, he]
      rw [if_neg (fun h => hmne (List.isEmpty_iff.mp h))]
    · intro hmeq
      unfold _decode_big_image
      rw [if_neg hscne]
      simp only [hparse, hfold, he]
      rw [if_pos (by rw [hmeq]; rfl)]

/-- Witness for `c2_reassembly`: three scanned strings, two messages; the
first message id `"aa"` is selected, the `"bb"` frame is ignored, nothing is
missing, and the two `"aa"` chunks are joined in index order. -/
theorem c2_reassembly_witness :
    _decode_big_image ["aa|0|2|AB".toList, "bb|0|1|Z".toList, "aa|1|2|CD".toList] =
      .ok ("ABCD".toList) := by
  have h := (c2_reassembly ["aa|0|2|AB".toList, "bb|0|1|Z".toList, "aa|1|2|CD".toList]
    ⟨"aa".toList, 0, 2, "AB".toList⟩
    [⟨"bb".toList, 0, 1, "Z".toList⟩, ⟨"aa".toList, 1, 2, "CD".toList⟩] rfl).2.2 (by decide)
  exact h

/-- **C8**: an empty scan yields `ScanError("No QR codes found.")`, a
non-empty scan in which no symbol parses as a frame yields the distinct
`ScanError("Invalid QR format.")`. -/
theorem c8_scan_errors (J : JsonCodec) (F : FernetScheme) (H : HashFn) (pass : Option Str) :
    decode_big_qr_to_text J F H [] pass = (none, none, some .noQRCodes) ∧
    (∀ scans : List Str, scans ≠ [] → scans.filterMap parse_frame = [] →
      decode_big_qr_to_text J F H scans pass = (none, none, some .invalidFormat)) ∧
    QrError.noQRCodes ≠ QrError.invalidFormat := by
  refine ⟨decode_surface_scanerr J F H [] pass _ rfl, ?_, by decide⟩
  intro scans hne hpf
  apply decode_surface_scanerr
  unfold _decode_big_image
  rw [if_neg (fun h => hne (List.isEmpty_iff.mp h))]
  simp only [hpf]
  rfl

/-- Witness for `c8_scan_errors`: a single scanned string with no separator
parses as no frame, so the decode fails with the invalid-format error. -/
theorem c8_scan_errors_witness :
    decode_big_qr_to_text wJ wF wH ["xyz".toList] none = (none, none, some .invalidFormat) :=
  (c8_scan_errors wJ wF wH none).2.1 ["xyz".toList] (by decide) rfl

/-- **C10**: the empty-string passphrase is falsy in Python, so both
`maybe_encrypt` and `maybe_decrypt` treat it exactly like no passphrase:
the text and token pass through unchanged with no error, hence no
confidentiality and no error report. -/
theorem c10_empty_passphrase (F : FernetScheme) (text token : Str) :
    maybe_encrypt F text (some []) = text ∧
    maybe_decrypt F token (some []) = (some token, none) ∧
    maybe_encrypt F text none = text ∧
    maybe_decrypt F token none = (some token, none) :=
  ⟨rfl, rfl, rfl, rfl⟩

/-- **C5**: decrypting a token encrypted under `p1` with a different
supplied passphrase `p2` gives `DecryptionError` and no plaintext (the
Fernet contract is that authentication fails under the wrong key); any
token on which Fernet raises `InvalidToken` gives the same error; the error
is distinct from `IntegrityError`; and the full decode of a full encode
under the wrong passphrase returns `(none, none, DecryptionError)`. -/
theorem c5_wrong_passphrase (J : JsonCodec) (F : FernetScheme) (H : HashFn)
    (mid text : Str) (chunk_size : Int) (p1 p2 : Str)
    (hp1 : p1 ≠ []) (hp2 : p2 ≠ []) (_hne : p1 ≠ p2)
    (hmid : ∀ c ∈ mid, isHexDig c = true)
    (hcs : 0 < chunk_size)
    (_hwne : J.dumps (H text) text ≠ [])
    (hFne : F.encrypt p1 (J.dumps (H text) text) ≠ [])
    (hFdec : F.decrypt p2 (F.encrypt p1 (J.dumps (H text) text)) = none) :
    maybe_decrypt F (maybe_encrypt F (wrap_payload_with_checksum J H text) (some p1)) (some p2) =
      (none, some .decryptionFailed) ∧
    (∀ token : Str, F.decrypt p2 token = none →
      maybe_decrypt F token (some p2) = (none, some .decryptionFailed)) ∧
    QrError.decryptionFailed ≠ QrError.integrityMismatch ∧
    (encode_text_to_big_qr_file J F H mid text chunk_size (some p1)).toOption.map
        (fun frames => decode_big_qr_to_text J F H frames (some p2)) =
      some (none, none, some QrError.decryptionFailed) := by
  have hgen : ∀ token : Str, F.decrypt p2 token = none →
      maybe_decrypt F token (some p2) = (none, some .decryptionFailed) := by
    intro token hd
    simp only [maybe_decrypt]
    rw [if_neg (fun h => hp2 (List.isEmpty_iff.mp h)), hd]
  have hme : maybe_encrypt F (wrap_payload_with_checksum J H text) (some p1) =
      F.encrypt p1 (J.dumps (H text) text) := by
    simp only [maybe_encrypt]
    rw [if_neg (fun h => hp1 (List.isEmpty_iff.mp h))]
    rfl
  have hmd : maybe_decrypt F
      (maybe_encrypt F (wrap_payload_with_checksum J H text) (some p1)) (some p2) =
      (none, some .decryptionFailed) := by
    rw [hme]
    exact hgen _ hFdec
  refine ⟨hmd, hgen, by decide, ?_⟩
  have hpne : maybe_encrypt F (wrap_payload_with_checksum J H text) (some p1) ≠ [] := by
    rw [hme]
    exact hFne
  set payload := maybe_encrypt F (wrap_payload_with_checksum J H text) (some p1) with hpay
  have henc := encode_text_ok J F H mid text chunk_size (some p1) payload rfl hcs hpne
  have h0 : (0 : Nat) < chunk_size.toNat := by omega
  have hchne := chunksOfFuel_ne_nil chunk_size.toNat h0 payload hpne payload.length le_rfl
  have hflat := chunksOfFuel_flatten chunk_size.toNat h0 payload.length payload le_rfl
  have hm : '|' ∉ mid := fun hmem => absurd (hmid '|' hmem) (by decide)
  have hdec := decode_buildFrameStrs mid hm (chunksOfFuel chunk_size.toNat payload.length payload)
    hchne
  rw [hflat] at hdec
  have hfin := decode_surface_decfail J F H _ (some p2) payload none .decryptionFailed hdec hmd
  rw [henc]
  simp only [Except.toOption, Option.map, hfin]

/-- Witness for `c5_wrong_passphrase`: passphrases `"a"` and `"b"` on text
`"hi"` with the witness boundary instances. -/
theorem c5_wrong_passphrase_witness :
    (encode_text_to_big_qr_file wJ wF wH ("ab12".toList) ("hi".toList) 4 (some ['a'])).toOption.map
        (fun frames => decode_big_qr_to_text wJ wF wH frames (some ['b'])) =
      some (none, none, some QrError.decryptionFailed) :=
  (c5_wrong_passphrase wJ wF wH ("ab12".toList) ("hi".toList) 4 ['a'] ['b']
    (by decide) (by decide) (by decide) (by decide) (by decide) (by decide) (by decide)
    (by decide)).2.2.2

/-- **C6**: when the payload parses as a JSON object whose `"hash"` and
`"text"` fields are strings, unwrap recomputes the hash of `text`: on
mismatch it returns `(none, stored_hash, IntegrityError)`, on match
`(text, stored_hash, none)`; and the decode surface passes the stored hash
through alongside the integrity error. -/
theorem c6_integrity (J : JsonCodec) (F : FernetScheme) (H : HashFn)
    (w : Str) (fields : List (Str × JsonVal)) (sha t : Str)
    (hl : J.loads w = some (.jobj fields))
    (hh : pyGet fields hashKey = some (.jstr sha))
    (ht : pyGet fields textKey = some (.jstr t)) :
    (H t ≠ sha →
      unwrap_and_verify_payload J H w = (none, some sha, some .integrityMismatch)) ∧
    (H t = sha → unwrap_and_verify_payload J H w = (some t, some sha, none)) ∧
    (∀ (scans : List Str) (pass : Option Str) (payload : Str), H t ≠ sha →
      _decode_big_image scans = .ok payload →
      maybe_decrypt F payload pass = (some w, none) →
      decode_big_qr_to_text J F H scans pass = (none, some sha, some .integrityMismatch)) := by
  have hu1 : H t ≠ sha →
      unwrap_and_verify_payload J H w = (none, some sha, some .integrityMismatch) := by
    intro hne
    simp only [unwrap_and_verify_payload, hl, hh, ht]
    rw [if_pos hne]
  refine ⟨hu1, ?_, ?_⟩
  · intro he
    simp only [unwrap_and_verify_payload, hl, hh, ht]
    rw [if_neg (fun hc => hc he)]
  · intro scans pass payload hne h1 h2
    exact decode_surface_verifyerr J F H scans pass payload w none (some sha) _ h1 h2 (hu1 hne)

/-- Witness for `c6_integrity`: the stored hash `"x"` disagrees with the
recomputed hash of `"y"`, and the decode surface returns the stored hash
alongside the integrity error. -/
theorem c6_integrity_witness :
    decode_big_qr_to_text wJ wF wH ["ab|0|1|(x:y)".toList] none =
      (none, some ['x'], some .integrityMismatch) :=
  (c6_integrity wJ wF wH ("(x:y)".toList) [(hashKey, .jstr ['x']), (textKey, .jstr ['y'])]
    ['x'] ['y'] rfl rfl rfl).2.2 ["ab|0|1|(x:y)".toList] none ("(x:y)".toList)
    (by decide) rfl rfl

/-- **C7**: a payload that does not parse as JSON, or parses to a
non-object, or lacks string-typed `"hash"`/`"text"` fields, is returned
unchanged with no hash and no error — the legacy plain-text path. -/
theorem c7_legacy (J : JsonCodec) (H : HashFn) (p : Str)
    (h : J.loads p = none ∨ ∃ v, J.loads p = some v ∧ envelopeShape v = none) :
    unwrap_and_verify_payload J H p = (some p, none, none) := by
  rcases h with h | ⟨v, hv, hs⟩
  · simp only [unwrap_and_verify_payload, h]
  · cases v with
    | jobj fields =>
      simp only [unwrap_and_verify_payload, hv]
      rcases hg : pyGet fields hashKey with _ | gv
      · simp only [hg]
      · rcases ht : pyGet fields textKey with _ | tv
        · simp only [hg, ht]
        · simp only [envelopeShape, hg, ht] at hs
          try simp only [hg, ht]
          cases gv <;> cases tv <;> first
            | rfl
            | (exact absurd hs (by simp))
    | jnull => simp only [unwrap_and_verify_payload, hv]
    | jbool b => simp only [unwrap_and_verify_payload, hv]
    | jnum raw => simp only [unwrap_and_verify_payload, hv]
    | jstr s => simp only [unwrap_and_verify_payload, hv]
    | jarr elems => simp only [unwrap_and_verify_payload, hv]

/-- Witness for `c7_legacy`: `"hello"` is not JSON for the witness codec and
comes back unchanged. -/
theorem c7_legacy_witness :
    unwrap_and_verify_payload wJ wH ("hello".toList) = (some ("hello".toList), none, none) :=
  c7_legacy wJ wH ("hello".toList) (Or.inl rfl)

/-- Counterexample to **C3** as stated: the frame `"aa|-1|1|x"` has a
negative index, yet Python's `int()` parses it, so the frame is *not*
skipped as a parse failure — decoding reports the chunk at index 0 as
missing instead of failing with the invalid-format error that skipping
every symbol would produce. -/
theorem c3_counterexample :
    _decode_big_image ["aa|-1|1|x".toList] = .error (.missingChunks [0]) ∧
    _decode_big_image ["aa|-1|1|x".toList] ≠ .error .invalidFormat := by
  refine ⟨rfl, ?_⟩
  intro h
  rw [show _decode_big_image ["aa|-1|1|x".toList] =
    Except.error (QrError.missingChunks [0]) from rfl] at h
  exact absurd (Except.error.inj h) (by decide)

/-- Amended **C3**: frame decoding splits on `"|"` with at most three cuts
so the fourth field absorbs embedded separators verbatim; the index and
total fields must parse as Python integers — an optional sign is accepted,
so negative values parse and are kept; wrong field count or a non-numeric
field is a local parse failure, and a scanned string that fails to parse is
silently skipped without affecting the rest of the decode. -/
theorem c3_amended :
    (∀ a b c d : Str, '|' ∉ a → '|' ∉ b → '|' ∉ c →
      parse_frame (a ++ '|' :: (b ++ '|' :: (c ++ '|' :: d))) =
        (match pyInt b, pyInt c with
         | some i, some t => some ⟨a, i, t, d⟩
         | _, _ => none)) ∧
    (∀ s : Str, (pySplitMax '|' 3 s).length ≠ 4 → parse_frame s = none) ∧
    (∀ (s : Str) (scans : List Str), parse_frame s = none → scans ≠ [] →
      _decode_big_image (s :: scans) = _decode_big_image scans) := by
  refine ⟨?_, ?_, ?_⟩
  · intro a b c d ha hb hc
    unfold parse_frame
    rw [pySplitMax_quad a b c d ha hb hc]
  · intro s h
    unfold parse_frame
    set l := pySplitMax '|' 3 s with hl
    clear_value l
    match l, h with
    | [], _ => rfl
    | [a], _ => rfl
    | [a, b], _ => rfl
    | [a, b, c], _ => rfl
    | [a, b, c, d], h4 => exact absurd rfl h4
    | (a :: b :: c :: d :: e :: rest), _ => rfl
  · intro s scans hp hne
    unfold _decode_big_image
    rw [if_neg (by simp : ¬(List.isEmpty (s :: scans) = true)),
      if_neg (fun h => hne (List.isEmpty_iff.mp h))]
    simp only [List.filterMap_cons, hp]

/-- Witness for `c3_amended`: the fourth field of `"aa|1|2|x|y"` absorbs the
embedded separator verbatim. -/
theorem c3_amended_witness :
    parse_frame ("aa|1|2|x|y".toList) = some ⟨"aa".toList, 1, 2, "x|y".toList⟩ := by
  have h := c3_amended.1 ("aa".toList) ['1'] ['2'] ("x|y".toList)
    (by decide) (by decide) (by decide)
  exact h.trans (by rfl)

/-- Counterexample to **C4** as stated: encoding the *empty* text with a
positive chunk size does not fail — the codec happily wraps, chunks and
renders it (the empty-text rejection lives only in the HTTP layer). -/
theorem c4_counterexample :
    (encode_text_to_big_qr_file wJ wF wH ("ab".toList) [] 5 none).toOption.isSome = true := by
  decide

/-- Amended **C4**: encode fails with `ValidationError`
(`chunk_size must be positive`) exactly when the chunk size is not a
positive integer, and then no PNG is produced; empty text is not rejected
by the codec. -/
theorem c4_amended (J : JsonCodec) (F : FernetScheme) (H : HashFn) (mid text : Str)
    (chunk_size : Int) (pass : Option Str) (h : chunk_size ≤ 0) :
    encode_text_to_big_qr_file J F H mid text chunk_size pass =
      .error .chunkSizeNotPositive := by
  simp only [encode_text_to_big_qr_file, chunk_text]
  rw [if_pos h]

/-- Witness for `c4_amended`: chunk size `0` is rejected. -/
theorem c4_amended_witness :
    encode_text_to_big_qr_file wJ wF wH ("ab".toList) ("hi".toList) 0 none =
      .error .chunkSizeNotPositive :=
  c4_amended wJ wF wH ("ab".toList) ("hi".toList) 0 none (by decide)

/-- Counterexample to **C9** as stated: for the *empty* payload the chunker
returns zero fragments, not the single `index=0, total=1` fragment the
claim asserts for `chunk_size ≥ len(payload)`. -/
theorem c9_counterexample :
    chunk_text [] 5 = .ok [] ∧
    (chunk_text ([] : Str) 5).toOption.map List.length ≠ some 1 := by
  exact ⟨rfl, by decide⟩

/-- Amended **C9**: for a positive chunk size the chunker returns contiguous
slices (their concatenation is the payload) of at most `chunk_size`
characters, with `ceil(len(payload)/chunk_size)` slices; when the payload is
non-empty and `chunk_size ≥ len(payload)` there is exactly one fragment and
its frame carries `index=0, total=1`. -/
theorem c9_amended (payload : Str) (size : Int) (h : 0 < size) :
    ∀ chunks, chunk_text payload size = .ok chunks →
      chunks.flatten = payload ∧
      (∀ c ∈ chunks, c.length ≤ size.toNat) ∧
      chunks.length = (payload.length + size.toNat - 1) / size.toNat ∧
      (payload ≠ [] → payload.length ≤ size.toNat →
        chunks = [payload] ∧
        (∀ mid : Str, buildFrameStrs mid 1 0 [payload] =
          [mid ++ '|' :: '0' :: '|' :: '1' :: '|' :: payload])) := by
  intro chunks hch
  have h0 : (0 : Nat) < size.toNat := by omega
  have hce : chunks = chunksOfFuel size.toNat payload.length payload := by
    unfold chunk_text at hch
    rw [if_neg (by omega)] at hch
    exact (Except.ok.inj hch).symm
  subst hce
  refine ⟨chunksOfFuel_flatten _ h0 _ _ le_rfl, fun c hc => chunksOfFuel_le _ _ _ c hc,
    chunksOfFuel_length _ h0 _ _ le_rfl, ?_⟩
  intro hne hle
  refine ⟨chunksOfFuel_single _ h0 payload hne hle _ le_rfl, fun mid => rfl⟩

/-- Witness for `c9_amended`: payload `"ab"` with chunk size 5 gives the
single fragment `"ab"` with the right count. -/
theorem c9_amended_witness :
    List.flatten [("ab".toList : Str)] = ("ab".toList : Str) ∧
    List.length [("ab".toList : Str)] =
      (("ab".toList : Str).length + (5 : Int).toNat - 1) / (5 : Int).toNat := by
  have h := c9_amended ("ab".toList) 5 (by decide) [("ab".toList)] rfl
  exact ⟨h.1, h.2.2.1⟩
